import Mathlib

/-!
A shallow embedding of the codlocker-assets asset service, covering:

* the path algebra used by the resolver — Go's `path/filepath` lexical
  operations `Clean`, `Join`, `Abs` (Unix rules) and the string
  operations `strings.Contains` / `strings.HasPrefix`;
* `LocalStorage.Get` and `LocalStorage.Exists`
  (internal/storage/storage.go), with the filesystem modelled as a
  function from paths to file outcomes;
* the content-type classification and the HTTP asset handler from
  main.go (storage-backend switch, error collapsing, SVG sniffing).

Strings are modelled as lists of characters; bytes as natural numbers.
-/

namespace CodlockerAssets

/-- Strings are modelled as lists of characters. -/
abbrev Str := List Char

/-- The two-character probe `".."` that `Get` and `Exists` scan for with
`strings.Contains`. -/
def dotDot : Str := ['.', '.']

/-- Go `filepath.IsAbs` on Unix: the path begins with a slash. -/
def isRooted : Str → Bool
  | [] => false
  | c :: _ => c == '/'

/-- Split a path into its slash-separated segments.  The result is always
nonempty; empty segments record repeated, leading or trailing slashes. -/
def splitSegs : Str → List Str
  | [] => [[]]
  | c :: cs =>
    if c = '/' then [] :: splitSegs cs
    else
      match splitSegs cs with
      | [] => [[c]]
      | seg :: rest => (c :: seg) :: rest

/-- Join segments back with slashes (inverse of `splitSegs`). -/
def joinSegs : List Str → Str
  | [] => []
  | [seg] => seg
  | seg :: seg2 :: rest => seg ++ '/' :: joinSegs (seg2 :: rest)

/-- One step of Go `filepath.Clean`'s element loop, acting on a stack of
output segments (head = innermost segment): empty and `"."` elements are
skipped, `".."` backtracks (or is dropped at the root of a rooted path,
or kept at the head of a relative path), anything else is pushed. -/
def stepSeg (rooted : Bool) (stack : List Str) (seg : Str) : List Str :=
  if seg = [] ∨ seg = ['.'] then stack
  else if seg = dotDot then
    match stack with
    | [] => if rooted then [] else [dotDot]
    | top :: rest => if top = dotDot then dotDot :: top :: rest else rest
  else seg :: stack

/-- Process a list of segments through `stepSeg`. -/
def cleanStack (rooted : Bool) (stack : List Str) (segs : List Str) : List Str :=
  segs.foldl (stepSeg rooted) stack

/-- Turn a processed segment stack back into a path string. -/
def renderPath (rooted : Bool) (stack : List Str) : Str :=
  if rooted then
    match stack with
    | [] => ['/']
    | _ => '/' :: joinSegs stack.reverse
  else
    match stack with
    | [] => ['.']
    | _ => joinSegs stack.reverse

/-- Go `filepath.Clean` (Unix): shortest lexically equivalent path. -/
def clean (path : Str) : Str :=
  if path = [] then ['.']
  else renderPath (isRooted path) (cleanStack (isRooted path) [] (splitSegs path))

/-- Go `filepath.Join` of two elements: empty elements are ignored and
the result is cleaned; the Join of two empty elements is empty. -/
def joinPath (a b : Str) : Str :=
  if a = [] then (if b = [] then [] else clean b)
  else if b = [] then clean a
  else clean (a ++ '/' :: b)

/-- Go `filepath.Abs`: already-absolute paths are cleaned, relative ones
are joined onto the working directory.  `os.Getwd` is modelled as the
explicit parameter `cwd`; its failure mode is not modelled, so the two
`filepath.Abs` error branches of `Get`/`Exists` are unreachable here. -/
def absPath (cwd p : Str) : Str :=
  if isRooted p then clean p else joinPath cwd p

/-- The containment test on lines 46 and 81 of storage.go:
`strings.HasPrefix(absPath, absBase)` — a raw string-prefix comparison
of the two canonical paths. -/
def containmentCheck (absP absB : Str) : Prop := absB <+: absP

instance (absP absB : Str) : Decidable (containmentCheck absP absB) := by
  unfold containmentCheck; infer_instance

/-- Segment-boundary containment of canonical absolute paths, the
spec's notion of "equal to, or nested under, the canonical root path":
the candidate is the root itself, or the root is `"/"` and the candidate
is absolute, or the candidate extends the root across a `'/'` boundary. -/
def isUnder (cand root : Str) : Prop :=
  cand = root ∨ (root = ['/'] ∧ isRooted cand = true) ∨ (root ++ ['/']) <+: cand

instance (cand root : Str) : Decidable (isUnder cand root) := by
  unfold isUnder; infer_instance

/-- The error values `LocalStorage.Get` can return, one per
`fmt.Errorf` site reachable in the model (the two `filepath.Abs`
failure wraps are unreachable, see `absPath`). -/
inductive GetError
  | invalidPathTraversal  -- "invalid path: path traversal detected"
  | invalidPathOutside    -- "invalid path: outside base directory"
  | fileNotFound          -- "file not found"
  | openFailed            -- "failed to open file: ..."
  deriving DecidableEq

/-- Both `"invalid path: ..."` errors constitute the spec's
`InvalidPath` class. -/
def GetError.isInvalidPath (e : GetError) : Prop :=
  e = .invalidPathTraversal ∨ e = .invalidPathOutside

/-- Outcome of accessing one filesystem entry: absent (`os.IsNotExist`),
a regular file whose full read yields `bytes`, or any other I/O
failure. -/
inductive FileRes
  | absent
  | content (bytes : List Nat)
  | ioError
  deriving DecidableEq

/-- The filesystem, as observed through `os.Open`+`io.ReadAll` and
`os.Stat`, keyed by path. -/
abbrev FS := Str → FileRes

deriving instance DecidableEq for Except

/-- Model of `LocalStorage`, which serves files from the local filesystem. -/
structure LocalStorage where
  basePath : Str

/-- Model of `(*LocalStorage).Get` from internal/storage/storage.go: clean the
request path, reject it if the cleaned form contains `".."` anywhere,
join it onto the base path, reject unless the absolute base is a string
prefix of the absolute candidate, then open and fully read the file. -/
def LocalStorage.Get (s : LocalStorage) (fs : FS) (cwd : Str) (path : Str) :
    Except GetError (List Nat) :=
  let cleanPath := clean path
  if dotDot <:+: cleanPath then .error .invalidPathTraversal
  else
    let fullPath := joinPath s.basePath cleanPath
    let absBase := absPath cwd s.basePath
    let absP := absPath cwd fullPath
    if containmentCheck absP absBase then
      match fs fullPath with
      | .content b => .ok b
      | .absent => .error .fileNotFound
      | .ioError => .error .openFailed
    else .error .invalidPathOutside

/-- Model of `(*LocalStorage).Exists`: the same two path checks as `Get`, then
`os.Stat` success. -/
def LocalStorage.Exists (s : LocalStorage) (fs : FS) (cwd : Str) (path : Str) : Bool :=
  let cleanPath := clean path
  if dotDot <:+: cleanPath then false
  else
    let fullPath := joinPath s.basePath cleanPath
    if containmentCheck (absPath cwd fullPath) (absPath cwd s.basePath) then
      match fs fullPath with
      | .content _ => true
      | _ => false
    else false

/-- Go `filepath.Ext`: the suffix of the last element starting at the
final dot; empty when the last element has no dot. -/
def extAux : Str → Str → Str
  | [], _ => []
  | c :: cs, acc =>
    if c = '/' then []
    else if c = '.' then '.' :: acc
    else extAux cs (c :: acc)

/-- Model of `filepath.Ext`, scanning `p` from its end. -/
def ext (p : Str) : Str := extAux p.reverse []

/-- Model of `mime.TypeByExtension`, abstracted as a table from extensions to
MIME types; the empty string means "no mapping". -/
abbrev MimeTable := Str → Str

/-- The bytes of the literal `"<svg"`. -/
def svgMarker : List Nat := "<svg".toList.map Char.toNat

/-- The bytes of the literal `"<?xml"`. -/
def xmlMarker : List Nat := "<?xml".toList.map Char.toNat

/-- The content-type computation of the asset handler (main.go lines
172-180): extension lookup, overridden to `image/svg+xml` when
`len(data) > 4` and the leading bytes match one of the two SVG markers,
defaulting to `application/octet-stream` when the lookup is empty. -/
def detectContentType (mimeByExt : MimeTable) (assetPath : Str) (data : List Nat) : Str :=
  let contentType := mimeByExt (ext assetPath)
  if data.length > 4 ∧ (data.take 4 = svgMarker ∨ data.take 5 = xmlMarker) then
    "image/svg+xml".toList
  else if contentType = [] then "application/octet-stream".toList
  else contentType

/-- The spec's reference content-type classification, word for word:
classify as SVG whenever the first 4 bytes equal `"<svg"` or the first
5 bytes equal `"<?xml"`, with no further length condition. -/
def specContentType (mimeByExt : MimeTable) (assetPath : Str) (data : List Nat) : Str :=
  if data.take 4 = svgMarker ∨ data.take 5 = xmlMarker then
    "image/svg+xml".toList
  else
    let t := mimeByExt (ext assetPath)
    if t = [] then "application/octet-stream".toList else t

/-- The amended classification: the sniffing rule additionally requires
the content to be at least five bytes long. -/
def amendedContentType (mimeByExt : MimeTable) (assetPath : Str) (data : List Nat) : Str :=
  if 5 ≤ data.length ∧ (data.take 4 = svgMarker ∨ data.take 5 = xmlMarker) then
    "image/svg+xml".toList
  else
    let t := mimeByExt (ext assetPath)
    if t = [] then "application/octet-stream".toList else t

/-- Go `strings.TrimPrefix`. -/
def trimPrefixStr (s pre : Str) : Str :=
  if pre.isPrefixOf s then s.drop pre.length else s

/-- The externally observable part of an HTTP response from the asset
handler. -/
structure Response where
  status : Nat
  body : List Nat
  contentType : Str
  cacheControl : Str
  deriving DecidableEq

/-- The response written by `http.Error(w, "not found",
http.StatusNotFound)`: it is a fixed constant, carrying no information
about which resolver error occurred. -/
def notFoundResponse : Response where
  status := 404
  body := "not found\n".toList.map Char.toNat
  contentType := "text/plain; charset=utf-8".toList
  cacheControl := []

/-- The storage-backend switch of the asset handler (main.go lines
150-163): `"bucket"` logs a warning and falls back to local storage;
`"local"` falls through to the default, which is also local storage.
Every branch constructs `LocalStorage` over the same base path. -/
def chooseStore (storageLocation : Str) (assetsBasePath : Str) : LocalStorage :=
  if storageLocation = "bucket".toList then
    LocalStorage.mk assetsBasePath
  else
    LocalStorage.mk assetsBasePath

/-- The `/assets/` handler (main.go lines 146-185): strip the prefix,
pick the backend, serve 404 `"not found"` on any `Get` error, otherwise
answer 200 with the bytes, the detected content type and a one-year
cache directive. -/
def assetHandler (storageLocation : Str) (assetsBasePath : Str) (mimeByExt : MimeTable)
    (fs : FS) (cwd : Str) (urlPath : Str) : Response :=
  let assetPath := trimPrefixStr urlPath "/assets/".toList
  let store := chooseStore storageLocation assetsBasePath
  match store.Get fs cwd assetPath with
  | .error _ => notFoundResponse
  | .ok data =>
    { status := 200
      body := data
      contentType := detectContentType mimeByExt assetPath data
      cacheControl := "public, max-age=31536000".toList }

/-! ### Lemmas about segment splitting and joining -/

theorem splitSegs_ne_nil (s : Str) : splitSegs s ≠ [] := by
  induction s with
  | nil => simp [splitSegs]
  | cons c cs ih =>
    by_cases hc : c = '/'
    · simp [splitSegs, hc]
    · simp only [splitSegs, if_neg hc]
      cases h : splitSegs cs with
      | nil => simp
      | cons a as => simp

theorem splitSegs_append (a b : Str) :
    splitSegs (a ++ '/' :: b) = splitSegs a ++ splitSegs b := by
  induction a with
  | nil => simp [splitSegs]
  | cons c cs ih =>
    by_cases hc : c = '/'
    · simp [splitSegs, hc, ih]
    · cases h : splitSegs cs with
      | nil => exact absurd h (splitSegs_ne_nil cs)
      | cons s0 ss =>
        simp only [List.cons_append, splitSegs, if_neg hc, List.append_eq, ih, h]

theorem splitSegs_head_isPre (s : Str) :
    ∀ s0 ss, splitSegs s = s0 :: ss → s0 <+: s := by
  induction s with
  | nil =>
    intro s0 ss h
    simp only [splitSegs, List.cons.injEq] at h
    rw [← h.1]
  | cons c cs ih =>
    intro s0 ss h
    by_cases hc : c = '/'
    · simp only [splitSegs, if_pos hc, List.cons.injEq] at h
      rw [← h.1]
      exact List.nil_prefix
    · simp only [splitSegs, if_neg hc] at h
      cases h2 : splitSegs cs with
      | nil => exact absurd h2 (splitSegs_ne_nil cs)
      | cons t0 ts =>
        rw [h2] at h
        obtain ⟨h3, _⟩ := List.cons.inj h
        obtain ⟨r, hr⟩ := ih t0 ts h2
        exact ⟨r, by rw [← h3, ← hr]; simp⟩

theorem mem_splitSegs_within (s : Str) : ∀ seg ∈ splitSegs s, seg <:+: s := by
  induction s with
  | nil =>
    intro seg hseg
    simp only [splitSegs, List.mem_singleton] at hseg
    rw [hseg]
  | cons c cs ih =>
    intro seg hseg
    by_cases hc : c = '/'
    · simp only [splitSegs, if_pos hc, List.mem_cons] at hseg
      rcases hseg with h | h
      · rw [h]; exact List.nil_infix
      · exact List.infix_cons (ih seg h)
    · simp only [splitSegs, if_neg hc] at hseg
      cases h2 : splitSegs cs with
      | nil => exact absurd h2 (splitSegs_ne_nil cs)
      | cons t0 ts =>
        rw [h2] at hseg
        simp only [List.mem_cons] at hseg
        rcases hseg with h | h
        · rw [h]
          exact ((List.cons_prefix_cons).mpr
            ⟨rfl, splitSegs_head_isPre cs t0 ts h2⟩).isInfix
        · exact List.infix_cons (ih seg (h2 ▸ List.mem_cons_of_mem t0 h))

theorem mem_splitSegs_no_slash (s : Str) : ∀ seg ∈ splitSegs s, '/' ∉ seg := by
  induction s with
  | nil =>
    intro seg hseg
    simp only [splitSegs, List.mem_singleton] at hseg
    rw [hseg]
    exact List.not_mem_nil '/'
  | cons c cs ih =>
    intro seg hseg
    by_cases hc : c = '/'
    · simp only [splitSegs, if_pos hc, List.mem_cons] at hseg
      rcases hseg with h | h
      · rw [h]; exact List.not_mem_nil '/'
      · exact ih seg h
    · simp only [splitSegs, if_neg hc] at hseg
      cases h2 : splitSegs cs with
      | nil => exact absurd h2 (splitSegs_ne_nil cs)
      | cons t0 ts =>
        rw [h2] at hseg
        simp only [List.mem_cons] at hseg
        rcases hseg with h | h
        · rw [h]
          intro hmem
          rcases List.mem_cons.mp hmem with h4 | h4
          · exact hc h4.symm
          · exact ih t0 (h2 ▸ List.mem_cons_self t0 ts) h4
        · exact ih seg (h2 ▸ List.mem_cons_of_mem t0 h)

theorem no_slash_splitSegs (s : Str) (h : '/' ∉ s) : splitSegs s = [s] := by
  induction s with
  | nil => rfl
  | cons c cs ih =>
    have hc : ¬ c = '/' := fun hcc => h (hcc ▸ List.mem_cons_self c cs)
    have hcs : '/' ∉ cs := fun hmem => h (List.mem_cons_of_mem c hmem)
    simp only [splitSegs, if_neg hc, ih hcs]

theorem joinSegs_cons (x : Str) (xs : List Str) :
    joinSegs (x :: xs) = x ++ (if xs = [] then [] else '/' :: joinSegs xs) := by
  cases xs <;> simp [joinSegs]

theorem joinSegs_splitSegs (s : Str) : joinSegs (splitSegs s) = s := by
  induction s with
  | nil => rfl
  | cons c cs ih =>
    by_cases hc : c = '/'
    · cases h2 : splitSegs cs with
      | nil => exact absurd h2 (splitSegs_ne_nil cs)
      | cons t0 ts =>
        rw [h2] at ih
        simp only [splitSegs, if_pos hc, h2, joinSegs, ih, hc, List.nil_append]
    · cases h2 : splitSegs cs with
      | nil => exact absurd h2 (splitSegs_ne_nil cs)
      | cons t0 ts =>
        rw [h2] at ih
        simp only [splitSegs, if_neg hc, h2, joinSegs_cons, List.cons_append] at ih ⊢
        rw [ih]

theorem splitSegs_joinSegs (l : List Str) (hne : l ≠ [])
    (hns : ∀ e ∈ l, '/' ∉ e) : splitSegs (joinSegs l) = l := by
  induction l with
  | nil => exact absurd rfl hne
  | cons x xs ih =>
    cases xs with
    | nil =>
      simp only [joinSegs]
      exact no_slash_splitSegs x (hns x (List.mem_cons_self x []))
    | cons y ys =>
      have h1 : joinSegs (x :: y :: ys) = x ++ '/' :: joinSegs (y :: ys) := rfl
      rw [h1, splitSegs_append,
        no_slash_splitSegs x (hns x (List.mem_cons_self x (y :: ys))),
        ih (by simp) (fun e he => hns e (List.mem_cons_of_mem x he))]
      rfl

theorem joinSegs_append (a b : List Str) (ha : a ≠ []) (hb : b ≠ []) :
    joinSegs (a ++ b) = joinSegs a ++ '/' :: joinSegs b := by
  induction a with
  | nil => exact absurd rfl ha
  | cons x xs ih =>
    cases xs with
    | nil =>
      cases b with
      | nil => exact absurd rfl hb
      | cons y ys => simp [joinSegs]
    | cons x' xs' =>
      have h1 : (x :: x' :: xs') ++ b = x :: ((x' :: xs') ++ b) := rfl
      rw [h1]
      have h2 : ((x' :: xs') ++ b) ≠ [] := by simp
      rw [joinSegs_cons x ((x' :: xs') ++ b), if_neg h2, ih (by simp),
        joinSegs_cons x (x' :: xs'), if_neg (by simp : ¬ (x' :: xs') = [])]
      simp

/-! ### Lemmas about the Clean element loop -/

theorem cleanStack_append (r : Bool) (st : List Str) (x y : List Str) :
    cleanStack r st (x ++ y) = cleanStack r (cleanStack r st x) y :=
  List.foldl_append _ _ _ _

theorem cleanStack_cons (r : Bool) (st : List Str) (seg : Str) (rest : List Str) :
    cleanStack r st (seg :: rest) = cleanStack r (stepSeg r st seg) rest := rfl

/-- The segments surviving the element loop when no parent-directory
segment occurs: everything except empty and dot segments. -/
def keepSegs (segs : List Str) : List Str :=
  segs.filter (fun seg => decide (seg ≠ [] ∧ seg ≠ ['.']))

theorem cleanStack_push_only (r : Bool) (segs : List Str)
    (h : ∀ seg ∈ segs, seg ≠ dotDot) (st : List Str) :
    cleanStack r st segs = (keepSegs segs).reverse ++ st := by
  induction segs generalizing st with
  | nil => simp [cleanStack, keepSegs]
  | cons seg rest ih =>
    rw [cleanStack_cons]
    have hseg : seg ≠ dotDot := h seg (List.mem_cons_self seg rest)
    have hrest : ∀ s2 ∈ rest, s2 ≠ dotDot :=
      fun s2 hs2 => h s2 (List.mem_cons_of_mem seg hs2)
    by_cases hskip : seg = [] ∨ seg = ['.']
    · rw [show stepSeg r st seg = st from by simp [stepSeg, hskip], ih hrest st]
      have hk : keepSegs (seg :: rest) = keepSegs rest := by
        rcases hskip with h1 | h1 <;> simp [keepSegs, h1]
      rw [hk]
    · rw [show stepSeg r st seg = seg :: st from by simp [stepSeg, hskip, hseg],
        ih hrest (seg :: st)]
      have hk : keepSegs (seg :: rest) = seg :: keepSegs rest := by
        rw [not_or] at hskip
        simp [keepSegs, hskip.1, hskip.2]
      rw [hk]
      simp

/-- A segment that may legitimately appear on a Clean output stack. -/
def goodSeg (seg : Str) : Prop := seg ≠ [] ∧ seg ≠ ['.'] ∧ '/' ∉ seg

theorem dotDot_goodSeg : goodSeg dotDot := by
  refine ⟨by decide, by decide, by decide⟩

theorem cleanStack_good (r : Bool) (segs : List Str)
    (hsegs : ∀ seg ∈ segs, '/' ∉ seg) (st : List Str) (hst : ∀ e ∈ st, goodSeg e) :
    ∀ e ∈ cleanStack r st segs, goodSeg e := by
  induction segs generalizing st with
  | nil => exact hst
  | cons seg rest ih =>
    rw [cleanStack_cons]
    apply ih (fun s2 hs2 => hsegs s2 (List.mem_cons_of_mem seg hs2))
    intro e he
    unfold stepSeg at he
    by_cases h1 : seg = [] ∨ seg = ['.']
    · rw [if_pos h1] at he
      exact hst e he
    · rw [if_neg h1] at he
      by_cases h2 : seg = dotDot
      · rw [if_pos h2] at he
        cases st with
        | nil =>
          cases r with
          | false =>
            simp only [Bool.false_eq_true, if_false, List.mem_singleton] at he
            rw [he]
            exact dotDot_goodSeg
          | true => simp at he
        | cons top st' =>
          have he2 : e ∈ if top = dotDot then dotDot :: top :: st' else st' := he
          by_cases h3 : top = dotDot
          · rw [if_pos h3] at he2
            rcases List.mem_cons.mp he2 with h4 | h4
            · rw [h4]; exact dotDot_goodSeg
            · exact hst e h4
          · rw [if_neg h3] at he2
            exact hst e (List.mem_cons_of_mem top he2)
      · rw [if_neg h2] at he
        rcases List.mem_cons.mp he with h4 | h4
        · rw [not_or] at h1
          exact h4 ▸ ⟨h1.1, h1.2, hsegs seg (List.mem_cons_self seg rest)⟩
        · exact hst e h4

theorem cleanStack_rooted_no_dotdot (segs : List Str) (st : List Str)
    (hst : ∀ e ∈ st, e ≠ dotDot) :
    ∀ e ∈ cleanStack true st segs, e ≠ dotDot := by
  induction segs generalizing st with
  | nil => exact hst
  | cons seg rest ih =>
    rw [cleanStack_cons]
    apply ih
    intro e he
    unfold stepSeg at he
    by_cases h1 : seg = [] ∨ seg = ['.']
    · rw [if_pos h1] at he
      exact hst e he
    · rw [if_neg h1] at he
      by_cases h2 : seg = dotDot
      · rw [if_pos h2] at he
        cases st with
        | nil => simp at he
        | cons top st' =>
          have he2 : e ∈ if top = dotDot then dotDot :: top :: st' else st' := he
          by_cases h3 : top = dotDot
          · exact absurd h3 (hst top (List.mem_cons_self top st'))
          · rw [if_neg h3] at he2
            exact hst e (List.mem_cons_of_mem top he2)
      · rw [if_neg h2] at he
        rcases List.mem_cons.mp he with h4 | h4
        · rw [h4]; exact h2
        · exact hst e h4

/-! ### Facts about rendering and cleaning -/

theorem isRooted_renderPath_true (st : List Str) :
    isRooted (renderPath true st) = true := by
  cases st <;> simp [renderPath, isRooted]

theorem isRooted_append (a b : Str) (ha : a ≠ []) :
    isRooted (a ++ b) = isRooted a := by
  cases a with
  | nil => exact absurd rfl ha
  | cons c cs => rfl

theorem joinSegs_ne_nil_of (l : List Str) (hl : l ≠ []) (he : ∀ e ∈ l, e ≠ []) :
    joinSegs l ≠ [] := by
  cases l with
  | nil => exact absurd rfl hl
  | cons x xs =>
    rw [joinSegs_cons]
    intro hcontra
    rcases List.append_eq_nil.mp hcontra with ⟨hx, _⟩
    exact he x (List.mem_cons_self x xs) hx

theorem isRooted_ne_nil (p : Str) (h : isRooted p = true) : p ≠ [] := by
  intro hp
  rw [hp] at h
  simp [isRooted] at h

theorem clean_rooted (p : Str) (h : isRooted p = true) :
    isRooted (clean p) = true := by
  unfold clean
  rw [if_neg (isRooted_ne_nil p h), h]
  exact isRooted_renderPath_true _

theorem clean_ne_nil (p : Str) : clean p ≠ [] := by
  unfold clean
  by_cases hp : p = []
  · simp [hp]
  · rw [if_neg hp]
    unfold renderPath
    cases hr : isRooted p
    · cases hst : cleanStack false [] (splitSegs p) with
      | nil => simp
      | cons x xs =>
        simp only
        apply joinSegs_ne_nil_of
        · simp
        · intro e he2
          have hgood := cleanStack_good false (splitSegs p)
            (mem_splitSegs_no_slash p) [] (by simp)
          exact (hgood e (hst ▸ List.mem_reverse.mp he2)).1
    · cases hst : cleanStack true [] (splitSegs p) <;> simp

theorem clean_renderPath_true (st : List Str)
    (hgood : ∀ e ∈ st, goodSeg e) (hnd : ∀ e ∈ st, e ≠ dotDot) :
    clean (renderPath true st) = renderPath true st := by
  cases st with
  | nil => decide
  | cons x xs =>
    have hr : renderPath true (x :: xs) = '/' :: joinSegs (x :: xs).reverse := rfl
    rw [hr]
    unfold clean
    rw [if_neg (by simp)]
    have hroot : isRooted ('/' :: joinSegs (x :: xs).reverse) = true := rfl
    rw [hroot]
    have hsplit : splitSegs ('/' :: joinSegs (x :: xs).reverse)
        = [] :: splitSegs (joinSegs (x :: xs).reverse) := by
      simp [splitSegs]
    rw [hsplit]
    have hrevne : (x :: xs).reverse ≠ [] := by simp
    have hrevns : ∀ e ∈ (x :: xs).reverse, '/' ∉ e :=
      fun e he => (hgood e (List.mem_reverse.mp he)).2.2
    rw [splitSegs_joinSegs _ hrevne hrevns]
    have hstep : cleanStack true [] ([] :: (x :: xs).reverse)
        = cleanStack true [] (x :: xs).reverse := by
      rw [cleanStack_cons]
      rfl
    rw [hstep,
      cleanStack_push_only true _ (fun e he => hnd e (List.mem_reverse.mp he)) []]
    have hkeep : keepSegs (x :: xs).reverse = (x :: xs).reverse := by
      rw [keepSegs, List.filter_eq_self]
      intro e he
      have hg := hgood e (List.mem_reverse.mp he)
      simp [hg.1, hg.2.1]
    rw [hkeep]
    simp [renderPath]

theorem absPath_rooted (cwd x : Str) (h : isRooted x = true) :
    absPath cwd x = clean x := by
  unfold absPath
  rw [h]
  simp

theorem clean_eq_renderPath (s : Str) (hs : s ≠ []) :
    clean s = renderPath (isRooted s) (cleanStack (isRooted s) [] (splitSegs s)) := by
  unfold clean
  rw [if_neg hs]

theorem renderPath_true_ne (st : List Str) (hst : st ≠ []) :
    renderPath true st = '/' :: joinSegs st.reverse := by
  cases st with
  | nil => exact absurd rfl hst
  | cons x xs => rfl

/-- The central containment fact: when the storage root is absolute and
the cleaned request path is free of `".."`, the candidate path the code
builds — the join of the root and the cleaned request path, made
canonical — is equal to, or segment-nested under, the canonical root.
No request can produce a sibling of the root. -/
theorem candidate_isUnder (cwd base p : Str) (hb : isRooted base = true)
    (hno : ¬ dotDot <:+: clean p) :
    isUnder (absPath cwd (joinPath base (clean p))) (absPath cwd base) := by
  have hbne : base ≠ [] := isRooted_ne_nil base hb
  have hcne : clean p ≠ [] := clean_ne_nil p
  have hjoin : joinPath base (clean p) = clean (base ++ '/' :: clean p) := by
    unfold joinPath
    rw [if_neg hbne, if_neg hcne]
  have habr : isRooted (base ++ '/' :: clean p) = true := by
    rw [isRooted_append _ _ hbne]; exact hb
  have hnd : ∀ seg ∈ splitSegs (clean p), seg ≠ dotDot := by
    intro seg hs heq
    exact hno (heq ▸ mem_splitSegs_within (clean p) seg hs)
  have hsplit : splitSegs (base ++ '/' :: clean p)
      = splitSegs base ++ splitSegs (clean p) := splitSegs_append base (clean p)
  have hstack : cleanStack true [] (splitSegs (base ++ '/' :: clean p))
      = (keepSegs (splitSegs (clean p))).reverse ++ cleanStack true [] (splitSegs base) := by
    rw [hsplit, cleanStack_append,
      cleanStack_push_only true (splitSegs (clean p)) hnd]
  have hgood : ∀ e ∈ cleanStack true [] (splitSegs (base ++ '/' :: clean p)), goodSeg e :=
    cleanStack_good true _ (mem_splitSegs_no_slash _) [] (by simp)
  have hnd2 : ∀ e ∈ cleanStack true [] (splitSegs (base ++ '/' :: clean p)), e ≠ dotDot :=
    cleanStack_rooted_no_dotdot _ [] (by simp)
  have hcleanfull : clean (base ++ '/' :: clean p)
      = renderPath true (cleanStack true [] (splitSegs (base ++ '/' :: clean p))) := by
    rw [clean_eq_renderPath _ (by simp), habr]
  have hfullrooted : isRooted (joinPath base (clean p)) = true := by
    rw [hjoin, hcleanfull]
    exact isRooted_renderPath_true _
  have habs1 : absPath cwd (joinPath base (clean p)) = joinPath base (clean p) := by
    rw [absPath_rooted _ _ hfullrooted, hjoin, hcleanfull,
      clean_renderPath_true _ hgood hnd2]
  have habs2 : absPath cwd base
      = renderPath true (cleanStack true [] (splitSegs base)) := by
    rw [absPath_rooted _ _ hb, clean_eq_renderPath base hbne, hb]
  rw [habs1, habs2, hjoin, hcleanfull, hstack]
  cases hK : keepSegs (splitSegs (clean p)) with
  | nil =>
    simp only [List.reverse_nil, List.nil_append]
    exact Or.inl rfl
  | cons k ks =>
    cases hSB : cleanStack true [] (splitSegs base) with
    | nil =>
      refine Or.inr (Or.inl ⟨rfl, ?_⟩)
      rw [List.append_nil]
      exact isRooted_renderPath_true _
    | cons b bs =>
      refine Or.inr (Or.inr ?_)
      have hrev : ((k :: ks).reverse ++ b :: bs).reverse
          = (b :: bs).reverse ++ k :: ks := by
        rw [List.reverse_append, List.reverse_reverse]
      have hKne : ((k :: ks).reverse ++ b :: bs) ≠ [] := by simp
      have h1 : renderPath true ((k :: ks).reverse ++ b :: bs)
          = '/' :: joinSegs ((b :: bs).reverse ++ k :: ks) := by
        rw [renderPath_true_ne _ hKne, hrev]
      have h2 : renderPath true (b :: bs) = '/' :: joinSegs (b :: bs).reverse := rfl
      rw [h1, h2,
        joinSegs_append (b :: bs).reverse (k :: ks) (by simp) (by simp)]
      exact ⟨joinSegs (k :: ks), by simp⟩

/-- Segment containment implies the raw prefix test used by the code. -/
theorem isUnder_implies_check (cand root : Str) (h : isUnder cand root) :
    containmentCheck cand root := by
  rcases h with h | ⟨h1, h2⟩ | h
  · rw [h]
    exact List.prefix_refl root
  · rw [h1]
    cases cand with
    | nil => simp [isRooted] at h2
    | cons c cs =>
      have hc : c = '/' := by simpa [isRooted] using h2
      rw [hc]
      exact ⟨cs, rfl⟩
  · exact List.IsPrefix.trans (show root <+: root ++ ['/'] from ⟨['/'], rfl⟩) h

/-- Decomposition of the candidate path built over an absolute root:
its canonical form is the root's stack extended by the surviving
segments of `c`, it is idempotent under `clean`, and it is rooted. -/
theorem joinPath_rooted_decompose (base c : Str) (hb : isRooted base = true)
    (hcne : c ≠ []) (hnd : ∀ seg ∈ splitSegs c, seg ≠ dotDot) :
    joinPath base c
      = renderPath true ((keepSegs (splitSegs c)).reverse
          ++ cleanStack true [] (splitSegs base))
    ∧ clean (joinPath base c) = joinPath base c
    ∧ isRooted (joinPath base c) = true := by
  have hbne : base ≠ [] := isRooted_ne_nil base hb
  have hjoin : joinPath base c = clean (base ++ '/' :: c) := by
    unfold joinPath
    rw [if_neg hbne, if_neg hcne]
  have habr : isRooted (base ++ '/' :: c) = true := by
    rw [isRooted_append _ _ hbne]; exact hb
  have hstack : cleanStack true [] (splitSegs (base ++ '/' :: c))
      = (keepSegs (splitSegs c)).reverse ++ cleanStack true [] (splitSegs base) := by
    rw [splitSegs_append, cleanStack_append, cleanStack_push_only true _ hnd]
  have hcleanfull : clean (base ++ '/' :: c)
      = renderPath true (cleanStack true [] (splitSegs (base ++ '/' :: c))) := by
    rw [clean_eq_renderPath _ (by simp), habr]
  have hgood : ∀ e ∈ cleanStack true [] (splitSegs (base ++ '/' :: c)), goodSeg e :=
    cleanStack_good true _ (mem_splitSegs_no_slash _) [] (by simp)
  have hnd2 : ∀ e ∈ cleanStack true [] (splitSegs (base ++ '/' :: c)), e ≠ dotDot :=
    cleanStack_rooted_no_dotdot _ [] (by simp)
  refine ⟨?_, ?_, ?_⟩
  · rw [hjoin, hcleanfull, hstack]
  · rw [hjoin, hcleanfull]
    exact clean_renderPath_true _ hgood hnd2
  · rw [hjoin, hcleanfull]
    exact isRooted_renderPath_true _

/-! ### The claims -/

/-- C1: over an absolute storage root, for every request path `p`, if
the canonical join of the root and the normalized `p` — the candidate
path the algorithm builds — does not lie (segment-wise) under the
canonical root, then `Get` returns one of the two invalid-path errors
and returns no file bytes, whatever the filesystem contains. -/
theorem C1_get_invalid_of_escape (fs : FS) (cwd root p : Str)
    (hroot : isRooted root = true)
    (hout : ¬ isUnder (absPath cwd (joinPath root (clean p))) (absPath cwd root)) :
    ∃ e : GetError, (LocalStorage.mk root).Get fs cwd p = .error e ∧ e.isInvalidPath := by
  by_cases hdd : dotDot <:+: clean p
  · refine ⟨.invalidPathTraversal, ?_, Or.inl rfl⟩
    simp only [LocalStorage.Get]
    rw [if_pos hdd]
  · exact absurd (candidate_isUnder cwd root p hroot hdd) hout

/-- C1 witness: root `/data/assets`, request `../../etc/passwd`, a
filesystem with content everywhere. -/
theorem C1_witness :
    ∃ e : GetError,
      (LocalStorage.mk "/data/assets".toList).Get (fun _ => .content [9]) "/".toList
        "../../etc/passwd".toList = .error e ∧ e.isInvalidPath :=
  C1_get_invalid_of_escape _ _ _ _ (by decide) (by decide)

/-- C2 counterexample: the containment test Get and Exists run (lines
46 and 81 of storage.go) is a raw string-prefix comparison; applied to
the sibling candidate `/data/assets-evil/file` and root `/data/assets`
it accepts, while segment-boundary containment rejects — so containment
is decided by raw string-prefix comparison, not by segment
boundaries. -/
theorem C2_counterexample :
    containmentCheck "/data/assets-evil/file".toList "/data/assets".toList
    ∧ ¬ isUnder "/data/assets-evil/file".toList "/data/assets".toList :=
  ⟨by decide, by decide⟩

/-- C2 amended: although the code's test is a raw prefix comparison
that would pass a sibling such as `/data/assets-evil/file`, every
candidate it is actually applied to is the join of the root with a
cleaned, traversal-free relative path; whenever `Get` succeeds or
`Exists` is true, the canonical candidate is segment-contained under
the canonical root, so no request reaches a sibling directory. -/
theorem C2_amended_no_sibling (fs : FS) (cwd root p : Str)
    (hroot : isRooted root = true) :
    (∀ b : List Nat, (LocalStorage.mk root).Get fs cwd p = .ok b →
      isUnder (absPath cwd (joinPath root (clean p))) (absPath cwd root))
    ∧ ((LocalStorage.mk root).Exists fs cwd p = true →
      isUnder (absPath cwd (joinPath root (clean p))) (absPath cwd root)) := by
  constructor
  · intro b hok
    by_cases hdd : dotDot <:+: clean p
    · simp only [LocalStorage.Get] at hok
      rw [if_pos hdd] at hok
      exact absurd hok (by simp)
    · exact candidate_isUnder cwd root p hroot hdd
  · intro hex
    by_cases hdd : dotDot <:+: clean p
    · simp only [LocalStorage.Exists] at hex
      rw [if_pos hdd] at hex
      exact absurd hex (by simp)
    · exact candidate_isUnder cwd root p hroot hdd

/-- C2 witness: a successful `Get` under root `/data/assets` whose
candidate is segment-contained. -/
theorem C2_amended_witness :
    isUnder
      (absPath "/".toList (joinPath "/data/assets".toList (clean "img/logo.svg".toList)))
      (absPath "/".toList "/data/assets".toList) :=
  (C2_amended_no_sibling
    (fun q => if q = "/data/assets/img/logo.svg".toList then .content [1] else .absent)
    "/".toList "/data/assets".toList "img/logo.svg".toList (by decide)).1 [1] (by decide)

/-- C3: whenever the cleaned request path contains a parent-directory
segment, `Get` rejects it with the traversal error — the check that
runs before joining with the root — for every filesystem, working
directory and root, so no file is ever opened. -/
theorem C3_traversal_rejected (fs : FS) (cwd root p : Str)
    (hseg : dotDot ∈ splitSegs (clean p)) :
    (LocalStorage.mk root).Get fs cwd p = .error .invalidPathTraversal := by
  have hdd : dotDot <:+: clean p := mem_splitSegs_within (clean p) dotDot hseg
  simp only [LocalStorage.Get]
  rw [if_pos hdd]

/-- C3 witness: `../../etc/passwd` is rejected even over a filesystem
with content everywhere. -/
theorem C3_witness :
    (LocalStorage.mk "/data/assets".toList).Get (fun _ => .content [1]) "/".toList
      "../../etc/passwd".toList = .error .invalidPathTraversal :=
  C3_traversal_rejected _ _ _ _ (by decide)

/-- A mime table mapping only `.jpg`, used in concrete instances. -/
def jpgOnlyTable : MimeTable :=
  fun e => if e = ".jpg".toList then "image/jpeg".toList else []

/-- C4 counterexample: on content that is exactly the four bytes
`"<svg"`, the code's guard `len(data) > 4` fails, so the handler serves
the extension type `image/jpeg` for `x.jpg`, while the spec's reference
classification (first 4 bytes equal `"<svg"` ⇒ SVG) yields
`image/svg+xml`. -/
theorem C4_counterexample :
    detectContentType jpgOnlyTable "x.jpg".toList svgMarker = "image/jpeg".toList
    ∧ specContentType jpgOnlyTable "x.jpg".toList svgMarker = "image/svg+xml".toList
    ∧ detectContentType jpgOnlyTable "x.jpg".toList svgMarker
      ≠ specContentType jpgOnlyTable "x.jpg".toList svgMarker :=
  ⟨by decide, by decide, by decide⟩

/-- C4 amended: the classifier sniffs SVG only when the content is at
least five bytes long and its first 4 bytes equal `"<svg"` or its first
5 bytes equal `"<?xml"`; otherwise the extension-derived type applies,
defaulting to `application/octet-stream` when no mapping exists.  The
code's classifier equals this amended rule on every input. -/
theorem C4_classifier_eq_amended (mimeByExt : MimeTable) (assetPath : Str)
    (data : List Nat) :
    detectContentType mimeByExt assetPath data
      = amendedContentType mimeByExt assetPath data := rfl

/-- C5: on content shorter than five bytes the classifier never
triggers the SVG-sniffing rule and falls back to the extension-derived
type, defaulting to `application/octet-stream`; being a total function,
it cannot fail on short input. -/
theorem C5_short_content (mimeByExt : MimeTable) (assetPath : Str) (data : List Nat)
    (hshort : data.length < 5) :
    detectContentType mimeByExt assetPath data =
      (if mimeByExt (ext assetPath) = [] then "application/octet-stream".toList
       else mimeByExt (ext assetPath)) := by
  simp only [detectContentType]
  rw [if_neg]
  intro hcontra
  exact absurd hcontra.1 (by omega)

/-- C5 witness: a 3-byte file named `x.jpg` classifies by extension; a
zero-byte file with no extension mapping defaults to the generic binary
type. -/
theorem C5_witness :
    detectContentType jpgOnlyTable "x.jpg".toList [60, 115, 118] = "image/jpeg".toList
    ∧ detectContentType jpgOnlyTable "nodot".toList [] =
      "application/octet-stream".toList := by
  constructor
  · rw [C5_short_content jpgOnlyTable "x.jpg".toList [60, 115, 118] (by decide)]
    decide
  · rw [C5_short_content jpgOnlyTable "nodot".toList [] (by decide)]
    decide

/-- C6: whatever error the resolver returns — traversal, outside-base,
not-found or I/O — the asset handler's response is the one fixed
constant `notFoundResponse` (status 404, body `"not found"`), so the
response carries no information about the error and a caller cannot
distinguish a traversal rejection from an absent file. -/
theorem C6_error_collapse (storageLocation assetsBasePath : Str) (mimeByExt : MimeTable)
    (fs : FS) (cwd urlPath : Str) (e : GetError)
    (herr : (chooseStore storageLocation assetsBasePath).Get fs cwd
      (trimPrefixStr urlPath "/assets/".toList) = .error e) :
    assetHandler storageLocation assetsBasePath mimeByExt fs cwd urlPath
      = notFoundResponse := by
  simp only [assetHandler]
  rw [herr]

/-- C6 witness: a traversal request gets the constant 404 response. -/
theorem C6_witness :
    assetHandler "local".toList "/data/assets".toList (fun _ => [])
      (fun _ => .absent) "/".toList "/assets/../../etc/passwd".toList
      = notFoundResponse :=
  C6_error_collapse _ _ _ _ _ _ GetError.invalidPathTraversal (by decide)

/-- C7: for a canonical absolute root and a file physically present at
`root/sub/dir/file.bin` with bytes `B`, `Get` on request path
`sub/dir/file.bin` opens that very file and returns exactly `B`. -/
theorem C7_round_trip (fs : FS) (cwd root : Str) (B : List Nat)
    (hroot : isRooted root = true) (hcanon : clean root = root) (hne : root ≠ ['/'])
    (hfile : fs (root ++ '/' :: "sub/dir/file.bin".toList) = .content B) :
    (LocalStorage.mk root).Get fs cwd "sub/dir/file.bin".toList = .ok B := by
  have hbne : root ≠ [] := isRooted_ne_nil root hroot
  have hcleanc : clean "sub/dir/file.bin".toList = "sub/dir/file.bin".toList := by decide
  have hnd : ∀ seg ∈ splitSegs "sub/dir/file.bin".toList, seg ≠ dotDot := by decide
  obtain ⟨hdec, hidem, hrooted⟩ :=
    joinPath_rooted_decompose root "sub/dir/file.bin".toList hroot (by decide) hnd
  have h0 := clean_eq_renderPath root hbne
  rw [hroot] at h0
  have hSB : renderPath true (cleanStack true [] (splitSegs root)) = root := by
    rw [← h0, hcanon]
  have hSBne : cleanStack true [] (splitSegs root) ≠ [] := by
    intro hnil
    rw [hnil] at hSB
    exact hne hSB.symm
  have hjoin : joinPath root "sub/dir/file.bin".toList
      = root ++ '/' :: "sub/dir/file.bin".toList := by
    rw [hdec]
    cases hSBeq : cleanStack true [] (splitSegs root) with
    | nil => exact absurd hSBeq hSBne
    | cons b bs =>
      have hkeep : keepSegs (splitSegs "sub/dir/file.bin".toList)
          = splitSegs "sub/dir/file.bin".toList := by decide
      rw [hkeep, renderPath_true_ne _ (by simp), List.reverse_append,
        List.reverse_reverse,
        joinSegs_append _ _ (by simp) (splitSegs_ne_nil _),
        joinSegs_splitSegs]
      have hroot2 : root = '/' :: joinSegs (b :: bs).reverse := by
        rw [← hSB, hSBeq, renderPath_true_ne _ (by simp)]
      rw [hroot2]
      simp
  have habsBase : absPath cwd root = root := by
    rw [absPath_rooted _ _ hroot, hcanon]
  have habsFull : absPath cwd (joinPath root "sub/dir/file.bin".toList)
      = root ++ '/' :: "sub/dir/file.bin".toList := by
    rw [absPath_rooted _ _ hrooted, hidem, hjoin]
  have hcheck : containmentCheck (root ++ '/' :: "sub/dir/file.bin".toList) root :=
    ⟨'/' :: "sub/dir/file.bin".toList, rfl⟩
  simp only [LocalStorage.Get]
  rw [hcleanc, if_neg (by decide : ¬ dotDot <:+: "sub/dir/file.bin".toList)]
  rw [habsFull, habsBase, hjoin, if_pos hcheck, hfile]

/-- C7 witness: root `/data/assets`, bytes `[1, 2, 3]`. -/
theorem C7_witness :
    (LocalStorage.mk "/data/assets".toList).Get
      (fun q => if q = "/data/assets/sub/dir/file.bin".toList
        then .content [1, 2, 3] else .absent)
      "/".toList "sub/dir/file.bin".toList = .ok [1, 2, 3] :=
  C7_round_trip _ _ _ _ (by decide) (by decide) (by decide) (by decide)

/-- C8: `Exists` accepts exactly the paths `Get` serves (same
path-safety algorithm); it answers `false` — it cannot raise — for any
path `Get` rejects as invalid and for any path absent on disk; and
`Get` returns the not-found error precisely on validated paths whose
file is absent, an error distinct from the one produced by other I/O
failures. -/
theorem C8_exists_matches_get (fs : FS) (cwd root p : Str) :
    ((LocalStorage.mk root).Exists fs cwd p = true
      ↔ ∃ B, (LocalStorage.mk root).Get fs cwd p = .ok B)
    ∧ (∀ e : GetError, (LocalStorage.mk root).Get fs cwd p = .error e →
        e.isInvalidPath → (LocalStorage.mk root).Exists fs cwd p = false)
    ∧ (fs (joinPath root (clean p)) = .absent →
        (LocalStorage.mk root).Exists fs cwd p = false)
    ∧ ((LocalStorage.mk root).Get fs cwd p = .error .fileNotFound
      ↔ ¬ dotDot <:+: clean p
        ∧ containmentCheck (absPath cwd (joinPath root (clean p))) (absPath cwd root)
        ∧ fs (joinPath root (clean p)) = .absent) := by
  by_cases hdd : dotDot <:+: clean p
  · have hg : (LocalStorage.mk root).Get fs cwd p = .error .invalidPathTraversal := by
      simp only [LocalStorage.Get]
      rw [if_pos hdd]
    have hx : (LocalStorage.mk root).Exists fs cwd p = false := by
      simp only [LocalStorage.Exists]
      rw [if_pos hdd]
    refine ⟨⟨?_, ?_⟩, fun _ _ _ => hx, fun _ => hx, ?_, ?_⟩
    · intro h
      rw [hx] at h
      exact absurd h (by simp)
    · rintro ⟨B, hB⟩
      rw [hg] at hB
      exact absurd hB (by simp)
    · intro h
      rw [hg] at h
      exact absurd h (by simp)
    · rintro ⟨h1, _, _⟩
      exact absurd hdd h1
  · by_cases hck : containmentCheck (absPath cwd (joinPath root (clean p)))
        (absPath cwd root)
    · have hg : (LocalStorage.mk root).Get fs cwd p
          = match fs (joinPath root (clean p)) with
            | .content b => .ok b
            | .absent => .error .fileNotFound
            | .ioError => .error .openFailed := by
        simp only [LocalStorage.Get]
        rw [if_neg hdd, if_pos hck]
      have hx : (LocalStorage.mk root).Exists fs cwd p
          = match fs (joinPath root (clean p)) with
            | .content _ => true
            | _ => false := by
        simp only [LocalStorage.Exists]
        rw [if_neg hdd, if_pos hck]
      cases hfs : fs (joinPath root (clean p)) with
      | content b =>
        rw [hfs] at hg hx
        have hg2 : (LocalStorage.mk root).Get fs cwd p = .ok b := hg
        have hx2 : (LocalStorage.mk root).Exists fs cwd p = true := hx
        refine ⟨⟨fun _ => ⟨b, hg2⟩, fun _ => hx2⟩, ?_, ?_, ?_, ?_⟩
        · intro e he _
          rw [hg2] at he
          exact absurd he (by simp)
        · intro habs
          exact absurd habs (by simp)
        · intro h
          rw [hg2] at h
          exact absurd h (by simp)
        · rintro ⟨_, _, habs⟩
          exact absurd habs (by simp)
      | absent =>
        rw [hfs] at hg hx
        have hg2 : (LocalStorage.mk root).Get fs cwd p = .error .fileNotFound := hg
        have hx2 : (LocalStorage.mk root).Exists fs cwd p = false := hx
        refine ⟨⟨?_, ?_⟩, fun _ _ _ => hx2, fun _ => hx2, fun _ => ⟨hdd, hck, rfl⟩,
          fun _ => hg2⟩
        · intro h
          rw [hx2] at h
          exact absurd h (by simp)
        · rintro ⟨B, hB⟩
          rw [hg2] at hB
          exact absurd hB (by simp)
      | ioError =>
        rw [hfs] at hg hx
        have hg2 : (LocalStorage.mk root).Get fs cwd p = .error .openFailed := hg
        have hx2 : (LocalStorage.mk root).Exists fs cwd p = false := hx
        refine ⟨⟨?_, ?_⟩, fun _ _ _ => hx2, fun _ => hx2, ?_, ?_⟩
        · intro h
          rw [hx2] at h
          exact absurd h (by simp)
        · rintro ⟨B, hB⟩
          rw [hg2] at hB
          exact absurd hB (by simp)
        · intro h
          rw [hg2] at h
          exact absurd h (by simp)
        · rintro ⟨_, _, habs⟩
          exact absurd habs (by simp)
    · have hg : (LocalStorage.mk root).Get fs cwd p = .error .invalidPathOutside := by
        simp only [LocalStorage.Get]
        rw [if_neg hdd, if_neg hck]
      have hx : (LocalStorage.mk root).Exists fs cwd p = false := by
        simp only [LocalStorage.Exists]
        rw [if_neg hdd, if_neg hck]
      refine ⟨⟨?_, ?_⟩, fun _ _ _ => hx, fun _ => hx, ?_, ?_⟩
      · intro h
        rw [hx] at h
        exact absurd h (by simp)
      · rintro ⟨B, hB⟩
        rw [hg] at hB
        exact absurd hB (by simp)
      · intro h
        rw [hg] at h
        exact absurd h (by simp)
      · rintro ⟨_, hck2, _⟩
        exact absurd hck2 hck

/-- C8 witness: over an empty filesystem, `missing.png` under
`/data/assets` yields the not-found error from `Get` and `false` from
`Exists`. -/
theorem C8_witness :
    (LocalStorage.mk "/data/assets".toList).Get (fun _ => .absent) "/".toList
      "missing.png".toList = .error .fileNotFound
    ∧ (LocalStorage.mk "/data/assets".toList).Exists (fun _ => .absent) "/".toList
      "missing.png".toList = false := by
  have h := C8_exists_matches_get (fun _ => .absent) "/".toList "/data/assets".toList
    "missing.png".toList
  exact ⟨h.2.2.2.mpr ⟨by decide, by decide, rfl⟩, h.2.2.1 rfl⟩

/-- C9: whenever the cleaned request path contains the two-character
substring `".."` anywhere — even inside an ordinary file name that is
no parent-directory segment — `Get` rejects it with the traversal error
without consulting the filesystem, and `Exists` answers false, for
every filesystem, including ones where this very file is present under
the root. -/
theorem C9_substring_dots (fs : FS) (cwd root p : Str)
    (h : dotDot <:+: clean p) :
    (LocalStorage.mk root).Get fs cwd p = .error .invalidPathTraversal
    ∧ (LocalStorage.mk root).Exists fs cwd p = false := by
  constructor
  · simp only [LocalStorage.Get]
    rw [if_pos h]
  · simp only [LocalStorage.Exists]
    rw [if_pos h]

/-- C9 witness: `notes..old.txt` is rejected although the file exists
at `/data/assets/notes..old.txt`. -/
theorem C9_witness :
    (LocalStorage.mk "/data/assets".toList).Get
      (fun q => if q = "/data/assets/notes..old.txt".toList then .content [7] else .absent)
      "/".toList "notes..old.txt".toList = .error .invalidPathTraversal
    ∧ (LocalStorage.mk "/data/assets".toList).Exists
      (fun q => if q = "/data/assets/notes..old.txt".toList then .content [7] else .absent)
      "/".toList "notes..old.txt".toList = false :=
  C9_substring_dots _ _ _ _ (by decide)

/-- C10: the storage-location flag is irrelevant to the asset response:
every flag value selects the local backend over the same base path, so
two runs differing only in the flag produce identical responses on
every request. -/
theorem C10_flag_independent (loc loc2 assetsBasePath : Str) (mimeByExt : MimeTable)
    (fs : FS) (cwd urlPath : Str) :
    chooseStore loc assetsBasePath = LocalStorage.mk assetsBasePath
    ∧ assetHandler loc assetsBasePath mimeByExt fs cwd urlPath
      = assetHandler loc2 assetsBasePath mimeByExt fs cwd urlPath := by
  have hc : ∀ l : Str, chooseStore l assetsBasePath = LocalStorage.mk assetsBasePath := by
    intro l
    unfold chooseStore
    split <;> rfl
  exact ⟨hc loc, by simp only [assetHandler, hc]⟩

example : clean "abc//def//ghi".toList = "abc/def/ghi".toList := by decide
example : clean "abc/def/../ghi/../jkl".toList = "abc/jkl".toList := by decide
example : clean "/../abc".toList = "/abc".toList := by decide
example : clean "abc/..".toList = ['.'] := by decide
example : clean "".toList = ['.'] := by decide
example : clean "/".toList = ['/'] := by decide
example : clean "../../x".toList = "../../x".toList := by decide
example : joinPath "/data/assets".toList "img/a.png".toList = "/data/assets/img/a.png".toList := by
  decide
example : ext "x.jpg".toList = ".jpg".toList := by decide
example : ext "a.b/c".toList = [] := by decide

end CodlockerAssets
